import Mathlib

/-!
Shallow embedding of the `ParkingQueue` circular queue from `src/app.py`
(the core data structure of the Circular-Queue-for-Parking-Lot repository),
together with proofs of the specification's claims about it.

Modelling conventions:
* a Python slot value (`None` or a car dict `{"id": ..., "entry_time": ...}`)
  becomes `Option Entry`;
* `datetime` entry times are modelled as abstract `Nat` timestamps (no claim
  depends on their structure);
* raised exceptions (`OverflowError`, `IndexError`, `ValueError`) become an
  error type `QError` and fallible operations return `Except QError _`;
* mutation becomes explicit state passing: each mutating operation returns the
  new `ParkingQueue` value;
* the integer sizes passed to the constructor and `set_size` are modelled as
  `Int` so that the `size < 1` guards cover negative inputs exactly as in
  Python.
-/

/-- A parked car: the `{"id": str, "entry_time": datetime}` dict of `app.py`. -/
structure Entry where
  id : String
  entryTime : Nat
deriving DecidableEq, Repr

/-- The errors raised by `ParkingQueue`: `OverflowError("Parking is full")`,
`IndexError("Parking is empty")` and `ValueError("Size must be >= 1")`. -/
inductive QError where
  | CapacityExceeded
  | EmptyQueue
  | InvalidCapacity
deriving DecidableEq, Repr

/-- The state of `ParkingQueue`: fields `size`, `data`, `front`, `count`
of `app.py` lines 10-16. -/
structure ParkingQueue where
  size : Nat
  data : List (Option Entry)
  front : Nat
  count : Nat
deriving DecidableEq, Repr

namespace ParkingQueue

/-- `__init__` (app.py lines 10-16): raises `ValueError` for `size < 1`,
otherwise allocates `size` empty slots with `front = 0`, `count = 0`. -/
def init (size : Int) : Except QError ParkingQueue :=
  if size < 1 then .error .InvalidCapacity
  else .ok ⟨size.toNat, List.replicate size.toNat none, 0, 0⟩

/-- `is_full` (app.py lines 19-20). -/
def is_full (q : ParkingQueue) : Bool := q.count == q.size

/-- `is_empty` (app.py lines 22-23). -/
def is_empty (q : ParkingQueue) : Bool := q.count == 0

/-- `enqueue` (app.py lines 26-39): fails if full, else writes at physical
index `(front + count) % size`, increments `count`, returns the index. -/
def enqueue (q : ParkingQueue) (value : Entry) : Except QError (Nat × ParkingQueue) :=
  if q.is_full then .error .CapacityExceeded
  else
    let idx := (q.front + q.count) % q.size
    .ok (idx, { q with data := q.data.set idx (some value), count := q.count + 1 })

/-- `dequeue` (app.py lines 41-48): fails if empty, else reads the slot at
`front`, clears it, advances `front`, decrements `count`, returns the value
read (Python returns `self.data[self.front]`, an optional slot value). -/
def dequeue (q : ParkingQueue) : Except QError (Option Entry × ParkingQueue) :=
  if q.is_empty then .error .EmptyQueue
  else
    .ok (q.data.getD q.front none,
      { q with data := q.data.set q.front none,
               front := (q.front + 1) % q.size,
               count := q.count - 1 })

/-- `peek_front` (app.py lines 50-53). -/
def peek_front (q : ParkingQueue) : Except QError (Option Entry) :=
  if q.is_empty then .error .EmptyQueue
  else .ok (q.data.getD q.front none)

/-- `clear` (app.py lines 55-58). -/
def clear (q : ParkingQueue) : ParkingQueue :=
  { q with data := List.replicate q.size none, front := 0, count := 0 }

/-- The logical linearization `[self.data[(self.front + i) % self.size]
for i in range(self.count)]` computed by `set_size` (line 64) and
`remove_by_car_id` (line 92). -/
def logicalItems (q : ParkingQueue) : List (Option Entry) :=
  (List.range q.count).map (fun i => q.data.getD ((q.front + i) % q.size) none)

/-- The loop `for it in items: if it is not None: self.enqueue(it)` used to
rebuild the queue in `set_size` (lines 69-71) and `remove_by_car_id`
(lines 110-112). -/
def enqueueList (q : ParkingQueue) : List (Option Entry) → Except QError ParkingQueue
  | [] => .ok q
  | none :: rest => enqueueList q rest
  | some v :: rest =>
    match q.enqueue v with
    | .error e => .error e
    | .ok (_, q') => enqueueList q' rest

/-- `set_size` (app.py lines 60-71): fails for `new_size < 1`, else
linearizes, resets to a fresh buffer of the new size, and re-enqueues
`items[:new_size]`. -/
def set_size (q : ParkingQueue) (new_size : Int) : Except QError ParkingQueue :=
  if new_size < 1 then .error .InvalidCapacity
  else
    let items := logicalItems q
    enqueueList ⟨new_size.toNat, List.replicate new_size.toNat none, 0, 0⟩
      (items.take new_size.toNat)

/-- `find_index_by_car_id` (app.py lines 74-82): linear scan of physical
indices `0..size`, returning the first index whose non-empty slot has a
matching id, else `None`. -/
def find_index_by_car_id (q : ParkingQueue) (car_id : String) : Option Nat :=
  (List.range q.size).find? (fun i =>
    match q.data.getD i none with
    | none => false
    | some car => car.id == car_id)

/-- The scan of `remove_by_car_id` (app.py lines 93-101): walks the
linearized items, drops the first non-`None` item with a matching id
(later items, matching or not, are kept), and returns the removed item
together with the remaining items. -/
def removeScan (car_id : String) : List (Option Entry) → Option Entry × List (Option Entry)
  | [] => (none, [])
  | none :: rest =>
    let p := removeScan car_id rest
    (p.1, none :: p.2)
  | some v :: rest =>
    if v.id == car_id then (some v, rest)
    else
      let p := removeScan car_id rest
      (p.1, some v :: p.2)

/-- `remove_by_car_id` (app.py lines 84-114): returns `None` if empty or no
match (queue untouched), otherwise rebuilds the queue from the remaining
linearized items (fresh buffer, `front = 0`) and returns the removed car. -/
def remove_by_car_id (q : ParkingQueue) (car_id : String) :
    Except QError (Option Entry × ParkingQueue) :=
  if q.is_empty then .ok (none, q)
  else
    match removeScan car_id (logicalItems q) with
    | (none, _) => .ok (none, q)
    | (some v, new_items) =>
      match enqueueList
          { q with data := List.replicate q.size none, front := 0, count := 0 }
          new_items with
      | .error e => .error e
      | .ok q' => .ok (some v, q')

/-- The slot reached after walking `i` steps from `front` around the ring. -/
def slotAt (q : ParkingQueue) (i : Nat) : Option Entry :=
  q.data.getD ((q.front + i) % q.size) none

/-- The full walk of all `size` slots starting at `front`, advancing
`+1 mod size`. -/
def fullWalk (q : ParkingQueue) : List (Option Entry) :=
  (List.range q.size).map (slotAt q)

/-- The entries currently stored, in logical (FIFO) order. -/
def entriesList (q : ParkingQueue) : List Entry :=
  (logicalItems q).filterMap id

/-- Well-formedness of a queue state: the structural bounds together with the
ring-layout invariant (walking from `front`, the first `count` slots are
occupied and the remaining `size - count` are empty). -/
def WF (q : ParkingQueue) : Prop :=
  1 ≤ q.size ∧ q.data.length = q.size ∧ q.front < q.size ∧ q.count ≤ q.size ∧
    ∀ i, i < q.size → ((slotAt q i).isSome ↔ i < q.count)

instance (q : ParkingQueue) : Decidable (WF q) := by
  unfold WF; infer_instance

/-- A freshly allocated queue of `s` empty slots. -/
def freshQ (s : Nat) : ParkingQueue := ⟨s, List.replicate s none, 0, 0⟩

/-- The state produced by a successful `enqueue`. -/
def enqState (q : ParkingQueue) (v : Entry) : ParkingQueue :=
  { q with data := q.data.set ((q.front + q.count) % q.size) (some v),
           count := q.count + 1 }

/-- The state produced by a successful `dequeue`. -/
def deqState (q : ParkingQueue) : ParkingQueue :=
  { q with data := q.data.set q.front none,
           front := (q.front + 1) % q.size,
           count := q.count - 1 }

lemma getD_set_self {l : List (Option Entry)} {i : Nat} {x : Option Entry}
    (h : i < l.length) : (l.set i x).getD i none = x := by
  rw [List.getD_eq_getElem?_getD, List.getElem?_set_self h]
  rfl

lemma getD_set_ne {l : List (Option Entry)} {i j : Nat} {x : Option Entry}
    (h : i ≠ j) : (l.set i x).getD j none = l.getD j none := by
  rw [List.getD_eq_getElem?_getD, List.getElem?_set_ne h, ← List.getD_eq_getElem?_getD]

lemma getD_replicate {s i : Nat} : (List.replicate s (none : Option Entry)).getD i none = none := by
  rw [List.getD_eq_getElem?_getD, List.getElem?_replicate]
  split <;> rfl

/-- Two walk offsets below `s` land on the same physical slot iff they are
equal. -/
lemma walk_idx_inj {s f a b : Nat} (ha : a < s) (hb : b < s) :
    (f + a) % s = (f + b) % s ↔ a = b := by
  constructor
  · intro h
    have hmod : a ≡ b [MOD s] := Nat.ModEq.add_left_cancel' f h
    have h2 : a % s = b % s := hmod
    rwa [Nat.mod_eq_of_lt ha, Nat.mod_eq_of_lt hb] at h2
  · rintro rfl; rfl

lemma enqueue_error {q : ParkingQueue} (v : Entry) (h : q.count = q.size) :
    q.enqueue v = .error .CapacityExceeded := by
  simp [enqueue, is_full, h]

lemma enqueue_ok {q : ParkingQueue} (v : Entry) (h : q.count ≠ q.size) :
    q.enqueue v = .ok ((q.front + q.count) % q.size, enqState q v) := by
  simp [enqueue, is_full, h, enqState]

lemma dequeue_error {q : ParkingQueue} (h : q.count = 0) :
    q.dequeue = .error .EmptyQueue := by
  simp [dequeue, is_empty, h]

lemma dequeue_ok {q : ParkingQueue} (h : q.count ≠ 0) :
    q.dequeue = .ok (q.data.getD q.front none, deqState q) := by
  simp [dequeue, is_empty, h, deqState]

lemma slotAt_enqState {q : ParkingQueue} (v : Entry)
    (hlen : q.data.length = q.size) (hc : q.count < q.size)
    {i : Nat} (hi : i < q.size) :
    slotAt (enqState q v) i = if i = q.count then some v else slotAt q i := by
  have hs : 0 < q.size := Nat.lt_of_le_of_lt (Nat.zero_le _) hc
  unfold slotAt enqState
  simp only
  by_cases hic : i = q.count
  · subst hic
    rw [if_pos rfl]
    exact getD_set_self (by rw [hlen]; exact Nat.mod_lt _ hs)
  · rw [if_neg hic]
    exact getD_set_ne (fun h => hic ((walk_idx_inj hi hc).mp h.symm))

lemma slotAt_deqState {q : ParkingQueue}
    (hlen : q.data.length = q.size) (hf : q.front < q.size)
    {i : Nat} (hi : i < q.size) :
    slotAt (deqState q) i = if i = q.size - 1 then none else slotAt q (i + 1) := by
  have hs : 0 < q.size := Nat.lt_of_le_of_lt (Nat.zero_le _) hf
  unfold slotAt deqState
  simp only
  rw [Nat.mod_add_mod]
  by_cases hie : i = q.size - 1
  · subst hie
    rw [if_pos rfl]
    have : q.front + 1 + (q.size - 1) = q.front + q.size := by omega
    rw [this, Nat.add_mod_right, Nat.mod_eq_of_lt hf]
    exact getD_set_self (by rw [hlen]; exact hf)
  · rw [if_neg hie]
    have h1i : 1 + i < q.size := by omega
    have hne : (q.front + 1 + i) % q.size ≠ q.front := by
      intro h
      have h0 : (q.front + (1 + i)) % q.size = (q.front + 0) % q.size := by
        rw [Nat.add_zero, Nat.mod_eq_of_lt hf, ← Nat.add_assoc]
        exact h
      exact absurd ((walk_idx_inj h1i hs).mp h0) (by omega)
    rw [getD_set_ne (fun h => hne h.symm)]
    have : q.front + 1 + i = q.front + (i + 1) := by omega
    rw [this]

lemma WF_enqState {q : ParkingQueue} (v : Entry) (hwf : WF q) (hc : q.count < q.size) :
    WF (enqState q v) := by
  obtain ⟨hs, hlen, hf, _, hinv⟩ := hwf
  refine ⟨hs, by simp [enqState, hlen], hf, hc, ?_⟩
  intro i hi
  have hi' : i < q.size := hi
  have hcnt : (enqState q v).count = q.count + 1 := rfl
  rw [slotAt_enqState v hlen hc hi', hcnt]
  by_cases hic : i = q.count
  · subst hic
    simp
  · rw [if_neg hic, hinv i hi']
    omega

lemma WF_deqState {q : ParkingQueue} (hwf : WF q) (hc : 0 < q.count) :
    WF (deqState q) := by
  obtain ⟨hs, hlen, hf, hcs, hinv⟩ := hwf
  refine ⟨hs, by simp [deqState, hlen], Nat.mod_lt _ (by omega),
    show q.count - 1 ≤ q.size by omega, ?_⟩
  intro i hi
  have hi' : i < q.size := hi
  have hcnt : (deqState q).count = q.count - 1 := rfl
  rw [slotAt_deqState hlen hf hi', hcnt]
  by_cases hie : i = q.size - 1
  · subst hie
    simp only [if_pos rfl, Option.isSome_none]
    constructor
    · intro h; exact Bool.noConfusion h
    · intro h; exact absurd h (by omega)
  · rw [if_neg hie, hinv (i + 1) (by omega)]
    omega

lemma WF_freshQ {s : Nat} (hs : 1 ≤ s) : WF (freshQ s) := by
  refine ⟨hs, by simp [freshQ], hs, Nat.zero_le _, ?_⟩
  intro i _
  simp [freshQ, slotAt, getD_replicate]

lemma logicalItems_eq (q : ParkingQueue) :
    logicalItems q = (List.range q.count).map (slotAt q) := rfl

lemma filterMap_id_cons_none (l : List (Option Entry)) :
    (none :: l).filterMap id = l.filterMap id := rfl

lemma filterMap_id_cons_some (v : Entry) (l : List (Option Entry)) :
    (some v :: l).filterMap id = v :: l.filterMap id := rfl

lemma mapSome_of_allSome (l : List (Option Entry)) (h : ∀ x ∈ l, x.isSome) :
    l = (l.filterMap id).map some := by
  induction l with
  | nil => rfl
  | cons a rest ih =>
    match a with
    | none => exact absurd (h none (List.mem_cons_self _ _)) (by simp)
    | some v =>
      have htl := ih (fun x hx => h x (List.mem_cons_of_mem _ hx))
      rw [filterMap_id_cons_some, List.map_cons, ← htl]

lemma logicalItems_map_some {q : ParkingQueue} (hwf : WF q) :
    logicalItems q = (entriesList q).map some := by
  apply mapSome_of_allSome
  intro x hx
  obtain ⟨_, _, _, hcs, hinv⟩ := hwf
  rw [logicalItems_eq] at hx
  obtain ⟨i, hi, rfl⟩ := List.mem_map.mp hx
  have hic : i < q.count := List.mem_range.mp hi
  exact (hinv i (by omega)).mpr hic

lemma entriesList_length {q : ParkingQueue} (hwf : WF q) :
    (entriesList q).length = q.count := by
  have h := logicalItems_map_some hwf
  have h1 : (logicalItems q).length = q.count := by
    rw [logicalItems_eq]; simp
  rw [h] at h1
  simpa using h1

lemma entriesList_enqState {q : ParkingQueue} (v : Entry)
    (hlen : q.data.length = q.size) (hc : q.count < q.size) :
    entriesList (enqState q v) = entriesList q ++ [v] := by
  unfold entriesList
  rw [logicalItems_eq, logicalItems_eq]
  have hcnt : (enqState q v).count = q.count + 1 := rfl
  rw [hcnt, List.range_succ, List.map_append, List.filterMap_append]
  congr 1
  · congr 1
    apply List.map_congr_left
    intro i hi
    have hic : i < q.count := List.mem_range.mp hi
    rw [slotAt_enqState v hlen hc (by omega), if_neg (by omega)]
  · simp [slotAt_enqState v hlen hc hc]

lemma entriesList_cons_deqState {q : ParkingQueue} (hwf : WF q) (hc : 0 < q.count) :
    ∃ e, q.data.getD q.front none = some e ∧
      entriesList q = e :: entriesList (deqState q) := by
  obtain ⟨hs, hlen, hf, hcs, hinv⟩ := hwf
  have h0 : (slotAt q 0).isSome := (hinv 0 (by omega)).mpr hc
  obtain ⟨e, he⟩ := Option.isSome_iff_exists.mp h0
  refine ⟨e, ?_, ?_⟩
  · have hsl : slotAt q 0 = q.data.getD q.front none := by
      unfold slotAt
      rw [Nat.add_zero, Nat.mod_eq_of_lt hf]
    rw [← hsl]
    exact he
  · unfold entriesList
    rw [logicalItems_eq, logicalItems_eq]
    obtain ⟨n, hn⟩ : ∃ n, q.count = n + 1 := ⟨q.count - 1, by omega⟩
    have hcnt : (deqState q).count = n := by
      show q.count - 1 = n
      omega
    rw [hcnt, hn, List.range_succ_eq_map, List.map_cons, he, filterMap_id_cons_some]
    congr 1
    rw [List.map_map]
    congr 1
    apply List.map_congr_left
    intro i hi
    have hin : i < n := List.mem_range.mp hi
    have hisz : i < q.size := by omega
    rw [slotAt_deqState hlen hf hisz, if_neg (by omega)]
    rfl

lemma enqueueList_cons_none (q : ParkingQueue) (rest : List (Option Entry)) :
    enqueueList q (none :: rest) = enqueueList q rest := rfl

lemma enqueueList_cons_some (q : ParkingQueue) (v : Entry) (rest : List (Option Entry)) :
    enqueueList q (some v :: rest) =
      match q.enqueue v with
      | .error e => .error e
      | .ok (_, q') => enqueueList q' rest := rfl

lemma enqueueList_ok (items : List (Option Entry)) :
    ∀ (q : ParkingQueue), WF q → q.count + (items.filterMap id).length ≤ q.size →
    ∃ q', enqueueList q items = .ok q' ∧ WF q' ∧ q'.size = q.size ∧ q'.front = q.front ∧
      q'.count = q.count + (items.filterMap id).length ∧
      entriesList q' = entriesList q ++ items.filterMap id := by
  induction items with
  | nil =>
    intro q hwf _
    exact ⟨q, rfl, hwf, rfl, rfl, by simp, by simp⟩
  | cons a rest ih =>
    match a with
    | none =>
      intro q hwf hroom
      rw [filterMap_id_cons_none] at hroom ⊢
      rw [enqueueList_cons_none]
      exact ih q hwf hroom
    | some v =>
      intro q hwf hroom
      rw [filterMap_id_cons_some] at hroom ⊢
      have hc : q.count < q.size := by
        simp only [List.length_cons] at hroom
        omega
      have hlen : q.data.length = q.size := hwf.2.1
      rw [enqueueList_cons_some, enqueue_ok v (by omega)]
      obtain ⟨q', hrun, hwf', hsz', hfr', hcnt', hent'⟩ :=
        ih (enqState q v) (WF_enqState v hwf hc)
          (by
            show q.count + 1 + (rest.filterMap id).length ≤ q.size
            simp only [List.length_cons] at hroom
            omega)
      refine ⟨q', hrun, hwf', hsz', hfr', ?_, ?_⟩
      · rw [hcnt']
        show q.count + 1 + (rest.filterMap id).length = q.count + (v :: rest.filterMap id).length
        simp only [List.length_cons]
        omega
      · rw [hent', entriesList_enqState v hlen hc, List.append_assoc]
        rfl

lemma enqueue_inv {q q' : ParkingQueue} {v : Entry} {i : Nat}
    (h : q.enqueue v = .ok (i, q')) :
    q.count ≠ q.size ∧ i = (q.front + q.count) % q.size ∧ q' = enqState q v := by
  by_cases hc : q.count = q.size
  · rw [enqueue_error v hc] at h
    cases h
  · rw [enqueue_ok v hc] at h
    simp only [Except.ok.injEq, Prod.mk.injEq] at h
    exact ⟨hc, h.1.symm, h.2.symm⟩

lemma dequeue_inv {q q' : ParkingQueue} {r : Option Entry}
    (h : q.dequeue = .ok (r, q')) :
    q.count ≠ 0 ∧ r = q.data.getD q.front none ∧ q' = deqState q := by
  by_cases hc : q.count = 0
  · rw [dequeue_error hc] at h
    cases h
  · rw [dequeue_ok hc] at h
    simp only [Except.ok.injEq, Prod.mk.injEq] at h
    exact ⟨hc, h.1.symm, h.2.symm⟩

lemma init_error {c : Int} (hc : c < 1) : init c = .error .InvalidCapacity := by
  simp [init, hc]

lemma init_ok {c : Int} (hc : 1 ≤ c) : init c = .ok (freshQ c.toNat) := by
  simp only [init, freshQ, if_neg (by omega : ¬c < 1)]

lemma entriesList_freshQ (s : Nat) : entriesList (freshQ s) = [] := rfl

lemma filterMap_id_map_some (l : List Entry) : (l.map some).filterMap id = l := by
  induction l with
  | nil => rfl
  | cons a rest ih => rw [List.map_cons, filterMap_id_cons_some, ih]

lemma set_size_error (q : ParkingQueue) {m : Int} (hm : m < 1) :
    q.set_size m = .error .InvalidCapacity := by
  simp [set_size, hm]

lemma set_size_ok {q : ParkingQueue} (hwf : WF q) {m : Int} (hm : 1 ≤ m) :
    ∃ q', q.set_size m = .ok q' ∧ WF q' ∧ q'.size = m.toNat ∧ q'.front = 0 ∧
      q'.count = ((entriesList q).take m.toNat).length ∧
      entriesList q' = (entriesList q).take m.toNat := by
  have hms : 1 ≤ m.toNat := by omega
  have hitems : (logicalItems q).take m.toNat = ((entriesList q).take m.toNat).map some := by
    rw [logicalItems_map_some hwf, List.map_take]
  obtain ⟨q', hrun, hwf', hsz', hfr', hcnt', hent'⟩ :=
    enqueueList_ok ((logicalItems q).take m.toNat) (freshQ m.toNat) (WF_freshQ hms)
      (by
        rw [hitems, filterMap_id_map_some]
        show 0 + ((entriesList q).take m.toNat).length ≤ m.toNat
        have := List.length_take_le m.toNat (entriesList q)
        omega)
  rw [hitems, filterMap_id_map_some] at hcnt' hent'
  rw [show (freshQ m.toNat).count = 0 from rfl] at hcnt'
  rw [entriesList_freshQ, List.nil_append] at hent'
  refine ⟨q', ?_, hwf', hsz', hfr', by omega, hent'⟩
  simp only [set_size, if_neg (by omega : ¬m < 1)]
  exact hrun

lemma removeScan_cons_none (cid : String) (rest : List (Option Entry)) :
    removeScan cid (none :: rest) =
      ((removeScan cid rest).1, none :: (removeScan cid rest).2) := rfl

lemma removeScan_cons_some (cid : String) (v : Entry) (rest : List (Option Entry)) :
    removeScan cid (some v :: rest) =
      if v.id == cid then (some v, rest)
      else ((removeScan cid rest).1, some v :: (removeScan cid rest).2) := by
  show (if v.id == cid then _ else _) = _
  split <;> rfl

lemma removeScan_map_some (cid : String) (es : List Entry) :
    removeScan cid (es.map some) =
      (es.find? (fun e => e.id == cid), (es.eraseP (fun e => e.id == cid)).map some) := by
  induction es with
  | nil => rfl
  | cons e rest ih =>
    rw [List.map_cons, removeScan_cons_some]
    by_cases hp : e.id == cid
    · simp [List.find?_cons, List.eraseP_cons, hp]
    · simp [List.find?_cons, List.eraseP_cons, hp, ih]

lemma removeScan_of_no_match (cid : String) (items : List (Option Entry))
    (h : ∀ e ∈ items.filterMap id, (e.id == cid) = false) :
    removeScan cid items = (none, items) := by
  induction items with
  | nil => rfl
  | cons a rest ih =>
    match a with
    | none =>
      rw [removeScan_cons_none, ih (fun e he => h e (by rw [filterMap_id_cons_none]; exact he))]
    | some v =>
      have hv : (v.id == cid) = false := h v (by rw [filterMap_id_cons_some]; simp)
      rw [removeScan_cons_some, if_neg (by simp [hv]),
        ih (fun e he => h e (by rw [filterMap_id_cons_some]; simp [he]))]

lemma remove_none {q : ParkingQueue} {cid : String}
    (hmiss : ∀ e ∈ entriesList q, (e.id == cid) = false) :
    q.remove_by_car_id cid = .ok (none, q) := by
  unfold remove_by_car_id
  by_cases hemp : q.is_empty
  · rw [if_pos hemp]
  · rw [if_neg hemp, removeScan_of_no_match cid (logicalItems q) hmiss]

lemma remove_found {q : ParkingQueue} {cid : String} {v : Entry} (hwf : WF q)
    (hfind : (entriesList q).find? (fun e => e.id == cid) = some v) :
    ∃ q', q.remove_by_car_id cid = .ok (some v, q') ∧ WF q' ∧ q'.size = q.size ∧
      q'.front = 0 ∧ entriesList q' = (entriesList q).eraseP (fun e => e.id == cid) := by
  have hne : q.count ≠ 0 := by
    intro h0
    have hlen0 : (entriesList q).length = 0 := by rw [entriesList_length hwf, h0]
    rw [List.length_eq_zero.mp hlen0] at hfind
    cases hfind
  have herase :
      ((entriesList q).eraseP (fun e => e.id == cid)).length ≤ (entriesList q).length :=
    List.length_eraseP_le _
  obtain ⟨q', hrun, hwf', hsz', hfr', hcnt', hent'⟩ :=
    enqueueList_ok (((entriesList q).eraseP (fun e => e.id == cid)).map some)
      { q with data := List.replicate q.size none, front := 0, count := 0 }
      (WF_freshQ hwf.1)
      (by
        rw [filterMap_id_map_some]
        show 0 + _ ≤ q.size
        have hlen := entriesList_length hwf
        have := hwf.2.2.2.1
        omega)
  rw [filterMap_id_map_some] at hent'
  rw [show entriesList { q with data := List.replicate q.size none, front := 0, count := 0 } = []
    from rfl, List.nil_append] at hent'
  refine ⟨q', ?_, hwf', hsz', hfr', hent'⟩
  unfold remove_by_car_id
  rw [if_neg (by simp [is_empty, hne]), logicalItems_map_some hwf, removeScan_map_some, hfind]
  simp only [hrun]

lemma remove_miss_inv {q q' : ParkingQueue} {cid : String}
    (h : q.remove_by_car_id cid = .ok (none, q')) : q' = q := by
  unfold remove_by_car_id at h
  by_cases hemp : q.is_empty
  · rw [if_pos hemp] at h
    simp only [Except.ok.injEq, Prod.mk.injEq] at h
    exact h.2.symm
  · rw [if_neg hemp] at h
    rcases hscan : removeScan cid (logicalItems q) with ⟨r, ni⟩
    rw [hscan] at h
    match r with
    | none =>
      simp only [Except.ok.injEq, Prod.mk.injEq] at h
      exact h.2.symm
    | some w =>
      rcases hrun : enqueueList
          { q with data := List.replicate q.size none, front := 0, count := 0 } ni with e | q₂
      · simp only [hrun] at h
        cases h
      · simp only [hrun] at h
        simp at h

lemma countP_eraseP (p : Entry → Bool) (l : List Entry) :
    (l.eraseP p).countP p = l.countP p - 1 := by
  induction l with
  | nil => rfl
  | cons a rest ih =>
    by_cases hp : p a
    · simp [List.eraseP_cons, List.countP_cons, hp]
    · simp [List.eraseP_cons, List.countP_cons, hp, ih]

end ParkingQueue

/-- One call in an enqueue/dequeue interleaving. -/
inductive QOp where
  | enq (v : Entry)
  | deq

namespace ParkingQueue

/-- Run a sequence of enqueue/dequeue calls, stopping at the first failure. -/
def runOps (q : ParkingQueue) : List QOp → Except QError ParkingQueue
  | [] => .ok q
  | QOp.enq v :: rest =>
    match q.enqueue v with
    | .error e => .error e
    | .ok (_, q') => runOps q' rest
  | QOp.deq :: rest =>
    match q.dequeue with
    | .error e => .error e
    | .ok (_, q') => runOps q' rest

/-- Number of enqueue calls in an interleaving. -/
def numEnqs (ops : List QOp) : Nat :=
  ops.countP (fun o => match o with | QOp.enq _ => true | QOp.deq => false)

/-- Number of dequeue calls in an interleaving. -/
def numDeqs (ops : List QOp) : Nat :=
  ops.countP (fun o => match o with | QOp.enq _ => false | QOp.deq => true)

lemma numEnqs_cons_enq (v : Entry) (rest : List QOp) :
    numEnqs (QOp.enq v :: rest) = numEnqs rest + 1 := by
  simp [numEnqs, List.countP_cons]

lemma numEnqs_cons_deq (rest : List QOp) :
    numEnqs (QOp.deq :: rest) = numEnqs rest := by
  simp [numEnqs, List.countP_cons]

lemma numDeqs_cons_enq (v : Entry) (rest : List QOp) :
    numDeqs (QOp.enq v :: rest) = numDeqs rest := by
  simp [numDeqs, List.countP_cons]

lemma numDeqs_cons_deq (rest : List QOp) :
    numDeqs (QOp.deq :: rest) = numDeqs rest + 1 := by
  simp [numDeqs, List.countP_cons]

lemma runOps_count (ops : List QOp) :
    ∀ q q', WF q → runOps q ops = .ok q' →
      WF q' ∧ q'.size = q.size ∧ q'.count + numDeqs ops = q.count + numEnqs ops := by
  induction ops with
  | nil =>
    intro q q' hwf h
    cases h
    exact ⟨hwf, rfl, rfl⟩
  | cons op rest ih =>
    intro q q' hwf h
    match op with
    | QOp.enq v =>
      rcases henq : q.enqueue v with e | ⟨i, q₁⟩
      · simp only [runOps, henq] at h
        cases h
      · simp only [runOps, henq] at h
        obtain ⟨hc, -, hq₁⟩ := enqueue_inv henq
        subst hq₁
        have hcs : q.count < q.size := by
          have := hwf.2.2.2.1
          omega
        obtain ⟨hwf', hsz', hcount⟩ := ih _ _ (WF_enqState v hwf hcs) h
        refine ⟨hwf', hsz', ?_⟩
        rw [show (enqState q v).count = q.count + 1 from rfl] at hcount
        rw [numDeqs_cons_enq, numEnqs_cons_enq]
        omega
    | QOp.deq =>
      rcases hdeq : q.dequeue with e | ⟨r, q₁⟩
      · simp only [runOps, hdeq] at h
        cases h
      · simp only [runOps, hdeq] at h
        obtain ⟨hc, -, hq₁⟩ := dequeue_inv hdeq
        subst hq₁
        obtain ⟨hwf', hsz', hcount⟩ := ih _ _ (WF_deqState hwf (by omega)) h
        refine ⟨hwf', hsz', ?_⟩
        rw [show (deqState q).count = q.count - 1 from rfl] at hcount
        rw [numDeqs_cons_deq, numEnqs_cons_deq]
        omega

/-- A sequence of `enqueue` calls, one per entry. -/
def enqueueSeq (q : ParkingQueue) : List Entry → Except QError ParkingQueue
  | [] => .ok q
  | v :: rest =>
    match q.enqueue v with
    | .error e => .error e
    | .ok (_, q') => enqueueSeq q' rest

lemma enqueueSeq_eq (q : ParkingQueue) (es : List Entry) :
    enqueueSeq q es = enqueueList q (es.map some) := by
  induction es generalizing q with
  | nil => rfl
  | cons v rest ih =>
    rw [List.map_cons]
    rcases h : q.enqueue v with e | ⟨i, q₁⟩
    · simp only [enqueueSeq, enqueueList_cons_some, h]
    · simp only [enqueueSeq, enqueueList_cons_some, h]
      exact ih q₁

/-- A sequence of `n` `dequeue` calls, collecting the returned values. -/
def dequeueSeq (q : ParkingQueue) : Nat → Except QError (List (Option Entry) × ParkingQueue)
  | 0 => .ok ([], q)
  | n + 1 =>
    match q.dequeue with
    | .error e => .error e
    | .ok (v, q') =>
      match dequeueSeq q' n with
      | .error e => .error e
      | .ok (vs, q'') => .ok (v :: vs, q'')

lemma dequeueSeq_ok (l : List Entry) :
    ∀ q, WF q → entriesList q = l →
    ∃ qf, dequeueSeq q l.length = .ok (l.map some, qf) ∧ WF qf := by
  induction l with
  | nil =>
    intro q hwf _
    exact ⟨q, rfl, hwf⟩
  | cons e rest ih =>
    intro q hwf hent
    have hc : 0 < q.count := by
      have hl := entriesList_length hwf
      rw [hent] at hl
      simp only [List.length_cons] at hl
      omega
    obtain ⟨e', he', hcons⟩ := entriesList_cons_deqState hwf hc
    rw [hent] at hcons
    injection hcons with h1 h2
    rw [← h1] at he'
    obtain ⟨qf, hrun, hwf'⟩ := ih (deqState q) (WF_deqState hwf hc) h2.symm
    refine ⟨qf, ?_, hwf'⟩
    show dequeueSeq q (rest.length + 1) = _
    simp only [dequeueSeq, dequeue_ok (show q.count ≠ 0 by omega), he', hrun, List.map_cons]

lemma find?_range'_some (p : Nat → Bool) :
    ∀ (n k i : Nat), ((List.range' k n).find? p = some i ↔
      (k ≤ i ∧ i < k + n ∧ p i = true ∧ ∀ j, k ≤ j → j < i → p j = false)) := by
  intro n
  induction n with
  | zero =>
    intro k i
    constructor
    · intro h
      cases h
    · rintro ⟨h1, h2, -, -⟩
      exact absurd h2 (by omega)
  | succ n ih =>
    intro k i
    rw [List.range'_succ]
    by_cases hp : p k
    · rw [@List.find?_cons_of_pos _ p k _ hp]
      constructor
      · intro h
        injection h with h'
        subst h'
        exact ⟨Nat.le_refl _, by omega, hp, fun j hj1 hj2 => absurd hj2 (by omega)⟩
      · rintro ⟨h1, h2, h3, h4⟩
        by_cases hik : i = k
        · rw [hik]
        · have hf := h4 k (Nat.le_refl _) (by omega)
          rw [hp] at hf
          exact Bool.noConfusion hf
    · rw [@List.find?_cons_of_neg _ p k _ hp, ih (k + 1) i]
      constructor
      · rintro ⟨h1, h2, h3, h4⟩
        refine ⟨by omega, by omega, h3, ?_⟩
        intro j hj1 hj2
        by_cases hjk : j = k
        · subst hjk
          cases hpk : p j with
          | false => rfl
          | true => exact absurd hpk hp
        · exact h4 j (by omega) hj2
      · rintro ⟨h1, h2, h3, h4⟩
        have hik : i ≠ k := by
          intro he
          subst he
          exact hp h3
        exact ⟨by omega, by omega, h3, fun j hj1 hj2 => h4 j (by omega) hj2⟩

lemma find?_range_some (p : Nat → Bool) (n i : Nat) :
    ((List.range n).find? p = some i ↔
      (i < n ∧ p i = true ∧ ∀ j, j < i → p j = false)) := by
  rw [List.range_eq_range', find?_range'_some]
  constructor
  · rintro ⟨-, h2, h3, h4⟩
    exact ⟨by omega, h3, fun j hj => h4 j (Nat.zero_le _) hj⟩
  · rintro ⟨h1, h2, h3⟩
    exact ⟨Nat.zero_le _, by omega, h2, fun j _ hj => h3 j hj⟩

lemma find_pred_true_iff (q : ParkingQueue) (cid : String) (i : Nat) :
    ((match q.data.getD i none with
      | none => false
      | some car => car.id == cid) = true) ↔
      ∃ car, q.data.getD i none = some car ∧ car.id = cid := by
  rcases h : q.data.getD i none with _ | car
  · simp [h]
  · simp [h]

lemma find_pred_false_iff (q : ParkingQueue) (cid : String) (j : Nat) :
    ((match q.data.getD j none with
      | none => false
      | some car => car.id == cid) = false) ↔
      ∀ car, q.data.getD j none = some car → car.id ≠ cid := by
  rcases h : q.data.getD j none with _ | car
  · simp [h]
  · simp [h]

lemma peek_error {q : ParkingQueue} (h : q.count = 0) :
    q.peek_front = .error .EmptyQueue := by
  simp [peek_front, is_empty, h]

lemma init_inv {c : Int} {q0 : ParkingQueue} (h : init c = .ok q0) :
    1 ≤ c ∧ q0 = freshQ c.toNat := by
  by_cases hc : c < 1
  · rw [init_error hc] at h
    cases h
  · rw [init_ok (by omega)] at h
    simp only [Except.ok.injEq] at h
    exact ⟨by omega, h.symm⟩

lemma enqueueList_frame (items : List (Option Entry)) :
    ∀ q q', enqueueList q items = .ok q' → q'.front = q.front ∧ q'.size = q.size := by
  induction items with
  | nil =>
    intro q q' h
    cases h
    exact ⟨rfl, rfl⟩
  | cons a rest ih =>
    match a with
    | none =>
      intro q q' h
      rw [enqueueList_cons_none] at h
      exact ih q q' h
    | some v =>
      intro q q' h
      rcases henq : q.enqueue v with e | ⟨i, q₁⟩
      · simp only [enqueueList_cons_some, henq] at h
        cases h
      · simp only [enqueueList_cons_some, henq] at h
        obtain ⟨-, -, hq₁⟩ := enqueue_inv henq
        subst hq₁
        obtain ⟨h1, h2⟩ := ih (enqState q v) q' h
        exact ⟨h1, h2⟩

lemma set_size_frame {q q' : ParkingQueue} {m : Int} (h : q.set_size m = .ok q') :
    q'.front = 0 ∧ q'.size = m.toNat := by
  unfold set_size at h
  by_cases hm : m < 1
  · rw [if_pos hm] at h
    cases h
  · rw [if_neg hm] at h
    exact enqueueList_frame _ _ _ h

lemma remove_some_frame {q q' : ParkingQueue} {cid : String} {w : Entry}
    (h : q.remove_by_car_id cid = .ok (some w, q')) :
    q'.front = 0 ∧ q'.size = q.size := by
  unfold remove_by_car_id at h
  by_cases hemp : q.is_empty
  · rw [if_pos hemp] at h
    simp at h
  · rw [if_neg hemp] at h
    rcases hscan : removeScan cid (logicalItems q) with ⟨r, ni⟩
    rw [hscan] at h
    match r with
    | none => simp at h
    | some w' =>
      rcases hrun : enqueueList
          { q with data := List.replicate q.size none, front := 0, count := 0 } ni with e | q₂
      · simp only [hrun] at h
        cases h
      · simp only [hrun] at h
        simp only [Except.ok.injEq, Prod.mk.injEq, Option.some.injEq] at h
        obtain ⟨-, rfl⟩ := h
        exact enqueueList_frame _ _ _ hrun

lemma remove_some_inv {q q' : ParkingQueue} {cid : String} {w : Entry} (hwf : WF q)
    (h : q.remove_by_car_id cid = .ok (some w, q')) :
    (entriesList q).find? (fun e => e.id == cid) = some w ∧
      WF q' ∧ q'.size = q.size ∧ q'.front = 0 ∧
      entriesList q' = (entriesList q).eraseP (fun e => e.id == cid) := by
  rcases hfind : (entriesList q).find? (fun e => e.id == cid) with _ | w'
  · have hmiss : ∀ e ∈ entriesList q, (e.id == cid) = false := by
      intro e he
      simpa using List.find?_eq_none.mp hfind e he
    rw [remove_none hmiss] at h
    simp at h
  · obtain ⟨q₂, hok, hwf2, hsz2, hfr2, hent2⟩ := remove_found hwf hfind
    rw [hok] at h
    simp only [Except.ok.injEq, Prod.mk.injEq, Option.some.injEq] at h
    obtain ⟨rfl, rfl⟩ := h
    exact ⟨hfind, hwf2, hsz2, hfr2, hent2⟩

lemma set_size_inv {q q' : ParkingQueue} {m : Int} (hwf : WF q)
    (h : q.set_size m = .ok q') :
    WF q' ∧ q'.size = m.toNat ∧ q'.front = 0 ∧
      entriesList q' = (entriesList q).take m.toNat := by
  by_cases hm : m < 1
  · rw [set_size_error q hm] at h
    cases h
  · obtain ⟨q₂, hok, hwf2, hsz2, hfr2, hcnt2, hent2⟩ := @set_size_ok q hwf m (by omega)
    rw [hok] at h
    simp only [Except.ok.injEq] at h
    subst h
    exact ⟨hwf2, hsz2, hfr2, hent2⟩

/-! ### Sample data used by the witness theorems -/

/-- Sample car "A". -/
def carA : Entry := ⟨"A", 0⟩

/-- Sample car "B". -/
def carB : Entry := ⟨"B", 1⟩

/-- Sample car "C". -/
def carC : Entry := ⟨"C", 2⟩

/-- Two sample cars sharing the id "X". -/
def carX1 : Entry := ⟨"X", 3⟩

/-- Second sample car with id "X". -/
def carX2 : Entry := ⟨"X", 4⟩

/-! ### The claims -/

/-- C1: every operation of the queue (enqueue, dequeue, peekFront, clear,
resize, findIndexByKey, removeByKey) preserves the ring-layout invariant `WF`
(walking the slots from physical index `front`, advancing `+1 mod capacity`,
yields exactly `count` occupied slots followed by `capacity - count` empty
ones), and for every enqueue/dequeue interleaving from a fresh queue that
runs without error (i.e. never exceeds capacity and never dequeues empty),
the final `count` equals #enqueues − #dequeues and stays within
`[0, capacity]`.  `peek_front` and `find_index_by_car_id` compute no new
state in the embedding, so their conjuncts assert that the queue they leave
behind is the untouched well-formed input. -/
theorem claim1_ring_invariant_preserved :
    (∀ (q q' : ParkingQueue) (v : Entry) (i : Nat),
      WF q → q.enqueue v = .ok (i, q') → WF q') ∧
    (∀ (q q' : ParkingQueue) (r : Option Entry),
      WF q → q.dequeue = .ok (r, q') → WF q') ∧
    (∀ (q : ParkingQueue) (r : Option Entry),
      WF q → q.peek_front = .ok r → WF q) ∧
    (∀ q : ParkingQueue, WF q → WF q.clear) ∧
    (∀ (q q' : ParkingQueue) (m : Int),
      WF q → q.set_size m = .ok q' → WF q') ∧
    (∀ (q : ParkingQueue) (cid : String) (i : Nat),
      WF q → q.find_index_by_car_id cid = some i → WF q) ∧
    (∀ (q q' : ParkingQueue) (cid : String) (r : Option Entry),
      WF q → q.remove_by_car_id cid = .ok (r, q') → WF q') ∧
    (∀ (c : Int) (q0 q' : ParkingQueue) (ops : List QOp),
      init c = .ok q0 → runOps q0 ops = .ok q' →
      q'.count + numDeqs ops = numEnqs ops ∧ q'.count ≤ q0.size) := by
  refine ⟨?_, ?_, ?_, ?_, ?_, ?_, ?_, ?_⟩
  · intro q q' v i hwf h
    obtain ⟨hc, -, hq'⟩ := enqueue_inv h
    subst hq'
    exact WF_enqState v hwf (by have := hwf.2.2.2.1; omega)
  · intro q q' r hwf h
    obtain ⟨hc, -, hq'⟩ := dequeue_inv h
    subst hq'
    exact WF_deqState hwf (by omega)
  · exact fun q r hwf _ => hwf
  · intro q hwf
    exact WF_freshQ hwf.1
  · intro q q' m hwf h
    exact (set_size_inv hwf h).1
  · exact fun q cid i hwf _ => hwf
  · intro q q' cid r hwf h
    match r with
    | none =>
      rw [remove_miss_inv h]
      exact hwf
    | some w => exact (remove_some_inv hwf h).2.1
  · intro c q0 q' ops hinit hrun
    obtain ⟨hc, rfl⟩ := init_inv hinit
    have hwf0 : WF (freshQ c.toNat) := WF_freshQ (by omega)
    obtain ⟨hwf', hsz', hcount⟩ := runOps_count ops _ _ hwf0 hrun
    refine ⟨?_, ?_⟩
    · rw [show (freshQ c.toNat).count = 0 from rfl] at hcount
      omega
    · have h1 := hwf'.2.2.2.1
      rw [hsz'] at h1
      exact h1


/-- C1 witness: the preservation statements and the counting law evaluated at
concrete inputs. -/
theorem claim1_ring_invariant_preserved_witness :
    WF (ParkingQueue.mk 2 [some carA, none] 0 1) ∧
    WF (ParkingQueue.mk 2 [none, none] 0 0).clear ∧
    ((ParkingQueue.mk 2 [none, some carB] 1 1).count +
        numDeqs [QOp.enq carA, QOp.enq carB, QOp.deq] =
      numEnqs [QOp.enq carA, QOp.enq carB, QOp.deq] ∧
      (ParkingQueue.mk 2 [none, some carB] 1 1).count ≤ (freshQ 2).size) :=
  ⟨claim1_ring_invariant_preserved.1 (freshQ 2) ⟨2, [some carA, none], 0, 1⟩ carA 0
      (by decide) rfl,
    claim1_ring_invariant_preserved.2.2.2.1 ⟨2, [none, none], 0, 0⟩ (by decide),
    claim1_ring_invariant_preserved.2.2.2.2.2.2.2 2 (freshQ 2)
      ⟨2, [none, some carB], 1, 1⟩ [QOp.enq carA, QOp.enq carB, QOp.deq] rfl rfl⟩

/-- C2: FIFO law — enqueueing entries with pairwise distinct ids into a fresh
queue whose capacity accommodates them, then dequeueing the same number of
times, returns exactly those entries in enqueue order. -/
theorem claim2_fifo (c : Int) (es : List Entry) (q0 : ParkingQueue)
    (hdistinct : (es.map Entry.id).Nodup)
    (hinit : init c = .ok q0) (hfit : es.length ≤ q0.size) :
    ∃ q1 q2, enqueueSeq q0 es = .ok q1 ∧
      dequeueSeq q1 es.length = .ok (es.map some, q2) := by
  obtain ⟨hc, rfl⟩ := init_inv hinit
  have hwf0 : WF (freshQ c.toNat) := WF_freshQ (by omega)
  have hfit' : es.length ≤ c.toNat := hfit
  rw [enqueueSeq_eq]
  obtain ⟨q1, hrun1, hwf1, hsz1, hfr1, hcnt1, hent1⟩ :=
    enqueueList_ok (es.map some) (freshQ c.toNat) hwf0
      (by
        rw [filterMap_id_map_some]
        show 0 + es.length ≤ c.toNat
        omega)
  rw [entriesList_freshQ, filterMap_id_map_some, List.nil_append] at hent1
  obtain ⟨q2, hrun2, -⟩ := dequeueSeq_ok es q1 hwf1 hent1
  exact ⟨q1, q2, hrun1, hrun2⟩

/-- C2 witness: two distinct cars through a fresh queue of capacity 2. -/
theorem claim2_fifo_witness :
    ∃ q1 q2, enqueueSeq (freshQ 2) [carA, carB] = .ok q1 ∧
      dequeueSeq q1 [carA, carB].length = .ok ([carA, carB].map some, q2) :=
  claim2_fifo 2 [carA, carB] (freshQ 2) (by decide) rfl (by decide)

/-- C3: enqueue fails with `CapacityExceeded` exactly when `count == capacity`;
otherwise it writes the entry at physical index `(front + count) % capacity`,
increments `count`, leaves `front` and every other slot unchanged, and
returns that physical index.  (`capacity ≥ 1` reflects the data model; a
Python queue can never hold capacity 0.) -/
theorem claim3_enqueue_contract (q : ParkingQueue) (v : Entry) (hsz : 1 ≤ q.size) :
    (q.count = q.size → q.enqueue v = .error .CapacityExceeded) ∧
    (q.count ≠ q.size →
      q.enqueue v = .ok ((q.front + q.count) % q.size,
        { size := q.size,
          data := q.data.set ((q.front + q.count) % q.size) (some v),
          front := q.front,
          count := q.count + 1 }) ∧
      ∀ j, j ≠ (q.front + q.count) % q.size →
        (q.data.set ((q.front + q.count) % q.size) (some v)).getD j none =
          q.data.getD j none) := by
  refine ⟨enqueue_error v, fun h => ⟨enqueue_ok v h, fun j hj => getD_set_ne fun h' => hj h'.symm⟩⟩

/-- C3 witness: a full queue rejects, a non-full one writes at
`(front + count) % capacity`. -/
theorem claim3_enqueue_contract_witness :
    (ParkingQueue.mk 2 [some carA, some carB] 0 2).enqueue carC =
      .error .CapacityExceeded ∧
    (ParkingQueue.mk 2 [none, some carA] 1 1).enqueue carB =
      .ok (0, { size := 2, data := [some carB, some carA], front := 1, count := 2 }) := by
  constructor
  · exact (claim3_enqueue_contract ⟨2, [some carA, some carB], 0, 2⟩ carC (by decide)).1 rfl
  · have h := ((claim3_enqueue_contract ⟨2, [none, some carA], 1, 1⟩ carB (by decide)).2
      (by decide)).1
    exact h

/-- C4: dequeue fails with `EmptyQueue` exactly when `count == 0`; otherwise
it returns the slot value stored at physical index `front`, clears that slot,
advances `front` to `(front + 1) % capacity` and decrements `count`. -/
theorem claim4_dequeue_contract (q : ParkingQueue) (hsz : 1 ≤ q.size) :
    (q.count = 0 → q.dequeue = .error .EmptyQueue) ∧
    (q.count ≠ 0 →
      q.dequeue = .ok (q.data.getD q.front none,
        { size := q.size,
          data := q.data.set q.front none,
          front := (q.front + 1) % q.size,
          count := q.count - 1 })) := by
  exact ⟨fun h => dequeue_error h, fun h => dequeue_ok h⟩

/-- C4 witness: dequeue on an empty and on a one-element queue. -/
theorem claim4_dequeue_contract_witness :
    (ParkingQueue.mk 2 [none, none] 0 0).dequeue = .error .EmptyQueue ∧
    (ParkingQueue.mk 2 [none, some carA] 1 1).dequeue =
      .ok (some carA, { size := 2, data := [none, none], front := 0, count := 0 }) := by
  constructor
  · exact (claim4_dequeue_contract ⟨2, [none, none], 0, 0⟩ (by decide)).1 rfl
  · exact (claim4_dequeue_contract ⟨2, [none, some carA], 1, 1⟩ (by decide)).2 (by decide)

/-- C5: resize fails with `InvalidCapacity` for `newCapacity < 1` (the pure
embedding returns no new state, so the old state is untouched); otherwise the
new capacity is `newCapacity`, `front` is `0`, and the logical order is the
first `min(k, newCapacity)` previous entries — entries at logical positions
`≥ newCapacity` are silently dropped, with no error raised. -/
theorem claim5_resize_truncates (q : ParkingQueue) (m : Int) (hwf : WF q) :
    (m < 1 → q.set_size m = .error .InvalidCapacity) ∧
    (1 ≤ m → ∃ q', q.set_size m = .ok q' ∧ WF q' ∧ q'.size = m.toNat ∧
      q'.front = 0 ∧ entriesList q' = (entriesList q).take m.toNat) := by
  refine ⟨set_size_error q, fun hm => ?_⟩
  obtain ⟨q', h1, h2, h3, h4, h5, h6⟩ := @set_size_ok q hwf m hm
  exact ⟨q', h1, h2, h3, h4, h6⟩

/-- C5 witness: `resize 0` fails; `resize 1` of a two-element queue keeps
exactly the first entry. -/
theorem claim5_resize_truncates_witness :
    (ParkingQueue.mk 2 [some carA, some carB] 0 2).set_size 0 =
      .error .InvalidCapacity ∧
    ∃ q', (ParkingQueue.mk 2 [some carA, some carB] 0 2).set_size 1 = .ok q' ∧
      WF q' ∧ q'.size = (1 : Int).toNat ∧ q'.front = 0 ∧
      entriesList q' =
        (entriesList (ParkingQueue.mk 2 [some carA, some carB] 0 2)).take (1 : Int).toNat := by
  constructor
  · exact (claim5_resize_truncates ⟨2, [some carA, some carB], 0, 2⟩ 0 (by decide)).1
      (by decide)
  · exact (claim5_resize_truncates ⟨2, [some carA, some carB], 0, 2⟩ 1 (by decide)).2
      (by decide)

/-- C6: removeByKey removes exactly the first entry in logical (FIFO) order
whose id matches (given that the scan finds one), returns it, rebuilds the
queue from the remaining entries in the same order with `front = 0` and the
capacity unchanged; the number of matching entries drops by exactly one, so
with duplicate ids the second occurrence remains. -/
theorem claim6_remove_first_match (q : ParkingQueue) (cid : String) (v : Entry)
    (hwf : WF q)
    (hfind : (entriesList q).find? (fun e => e.id == cid) = some v) :
    ∃ q', q.remove_by_car_id cid = .ok (some v, q') ∧ WF q' ∧
      q'.size = q.size ∧ q'.front = 0 ∧
      entriesList q' = (entriesList q).eraseP (fun e => e.id == cid) ∧
      (entriesList q').countP (fun e => e.id == cid) =
        (entriesList q).countP (fun e => e.id == cid) - 1 := by
  obtain ⟨q', h1, h2, h3, h4, h5⟩ := remove_found hwf hfind
  refine ⟨q', h1, h2, h3, h4, h5, ?_⟩
  rw [h5]
  exact countP_eraseP _ _

/-- C6 witness: a queue holding two cars with the same id "X"; removal takes
the first and the second stays. -/
theorem claim6_remove_first_match_witness :
    ∃ q', (ParkingQueue.mk 3 [some carX1, some carX2, none] 0 2).remove_by_car_id "X" =
        .ok (some carX1, q') ∧
      WF q' ∧ q'.size = 3 ∧ q'.front = 0 ∧
      entriesList q' =
        (entriesList (ParkingQueue.mk 3 [some carX1, some carX2, none] 0 2)).eraseP
          (fun e => e.id == "X") ∧
      (entriesList q').countP (fun e => e.id == "X") =
        (entriesList (ParkingQueue.mk 3 [some carX1, some carX2, none] 0 2)).countP
          (fun e => e.id == "X") - 1 :=
  claim6_remove_first_match ⟨3, [some carX1, some carX2, none], 0, 2⟩ "X" carX1
    (by decide) (by decide)

/-- C7: findIndexByKey scans the physical slots in ascending physical index
order, skipping the empty ones: it returns `some i` exactly when slot `i`
holds a matching occupant and no smaller physical index does, and `none`
exactly when no occupied slot matches.  (The operation is pure in the
embedding: it computes no new state.) -/
theorem claim7_find_physical_order (q : ParkingQueue) (cid : String) :
    (∀ i, q.find_index_by_car_id cid = some i ↔
      (i < q.size ∧ (∃ car, q.data.getD i none = some car ∧ car.id = cid) ∧
        ∀ j, j < i → ∀ car, q.data.getD j none = some car → car.id ≠ cid)) ∧
    (q.find_index_by_car_id cid = none ↔
      ∀ j, j < q.size → ∀ car, q.data.getD j none = some car → car.id ≠ cid) := by
  constructor
  · intro i
    unfold find_index_by_car_id
    rw [find?_range_some]
    constructor
    · rintro ⟨h1, h2, h3⟩
      exact ⟨h1, (find_pred_true_iff q cid i).mp h2,
        fun j hj => (find_pred_false_iff q cid j).mp (h3 j hj)⟩
    · rintro ⟨h1, h2, h3⟩
      exact ⟨h1, (find_pred_true_iff q cid i).mpr h2,
        fun j hj => (find_pred_false_iff q cid j).mpr (h3 j hj)⟩
  · unfold find_index_by_car_id
    rw [List.find?_eq_none]
    constructor
    · intro h j hj car hcar hcid
      exact h j (List.mem_range.mpr hj) ((find_pred_true_iff q cid j).mpr ⟨car, hcar, hcid⟩)
    · intro h x hx hpx
      obtain ⟨car, hcar, hcid⟩ := (find_pred_true_iff q cid x).mp hpx
      exact h x (List.mem_range.mp hx) car hcar hcid

/-- C7 witness: on a queue whose only car sits at physical index 1, the
physical scan finds id "A" at index 1 and misses id "Z". -/
theorem claim7_find_physical_order_witness :
    (ParkingQueue.mk 2 [none, some carA] 1 1).find_index_by_car_id "A" = some 1 ∧
    (ParkingQueue.mk 2 [none, some carA] 1 1).find_index_by_car_id "Z" = none := by
  constructor
  · refine ((claim7_find_physical_order ⟨2, [none, some carA], 1, 1⟩ "A").1 1).mpr
      ⟨by decide, ⟨carA, rfl, rfl⟩, ?_⟩
    intro j hj car hcar
    rcases j with _ | j
    · cases hcar
    · exact absurd hj (by omega)
  · refine (claim7_find_physical_order ⟨2, [none, some carA], 1, 1⟩ "Z").2.mpr ?_
    intro j hj car hcar
    rcases j with _ | _ | j
    · cases hcar
    · cases hcar
      decide
    · exact absurd hj (show ¬(j + 1 + 1 < 2) by omega)

/-- C8: error taxonomy and atomicity — enqueue on a full queue fails with
`CapacityExceeded`, dequeue/peek on an empty queue with `EmptyQueue`,
resize/construction with capacity < 1 with `InvalidCapacity`, while a
lookup/removal miss yields an optional `none` result, not an error, with the
state returned exactly as it was.  In the pure embedding every failing
operation returns only the error, so the caller's state is untouched and no
partial state is observable. -/
theorem claim8_error_taxonomy (q : ParkingQueue) (v : Entry) (cid : String) (c : Int) :
    (q.count = q.size → q.enqueue v = .error .CapacityExceeded) ∧
    (q.count = 0 → q.dequeue = .error .EmptyQueue) ∧
    (q.count = 0 → q.peek_front = .error .EmptyQueue) ∧
    (c < 1 → q.set_size c = .error .InvalidCapacity) ∧
    (c < 1 → init c = .error .InvalidCapacity) ∧
    ((∀ e ∈ entriesList q, (e.id == cid) = false) →
      q.remove_by_car_id cid = .ok (none, q)) ∧
    ((∀ j, j < q.size → ∀ car, q.data.getD j none = some car → car.id ≠ cid) →
      q.find_index_by_car_id cid = none) := by
  refine ⟨enqueue_error v, dequeue_error, peek_error, set_size_error q, init_error,
    remove_none, fun h => ?_⟩
  unfold find_index_by_car_id
  rw [List.find?_eq_none]
  intro x hx hpx
  obtain ⟨car, hcar, hcid⟩ := (find_pred_true_iff q cid x).mp hpx
  exact h x (List.mem_range.mp hx) car hcar hcid

/-- C8 witness: each failure mode evaluated at a concrete state. -/
theorem claim8_error_taxonomy_witness :
    (ParkingQueue.mk 2 [some carA, some carB] 0 2).enqueue carC =
      .error .CapacityExceeded ∧
    (ParkingQueue.mk 2 [none, none] 0 0).dequeue = .error .EmptyQueue ∧
    (ParkingQueue.mk 2 [none, none] 0 0).peek_front = .error .EmptyQueue ∧
    (ParkingQueue.mk 2 [some carA, none] 0 1).set_size 0 = .error .InvalidCapacity ∧
    init 0 = .error .InvalidCapacity ∧
    (ParkingQueue.mk 2 [some carA, none] 0 1).remove_by_car_id "Z" =
      .ok (none, ParkingQueue.mk 2 [some carA, none] 0 1) ∧
    (ParkingQueue.mk 2 [some carA, none] 0 1).find_index_by_car_id "Z" = none := by
  refine ⟨(claim8_error_taxonomy ⟨2, [some carA, some carB], 0, 2⟩ carC "Z" 0).1 rfl,
    (claim8_error_taxonomy ⟨2, [none, none], 0, 0⟩ carA "Z" 0).2.1 rfl,
    (claim8_error_taxonomy ⟨2, [none, none], 0, 0⟩ carA "Z" 0).2.2.1 rfl,
    (claim8_error_taxonomy ⟨2, [some carA, none], 0, 1⟩ carA "Z" 0).2.2.2.1 (by decide),
    (claim8_error_taxonomy ⟨2, [some carA, none], 0, 1⟩ carA "Z" 0).2.2.2.2.1 (by decide),
    (claim8_error_taxonomy ⟨2, [some carA, none], 0, 1⟩ carA "Z" 0).2.2.2.2.2.1 (by decide),
    (claim8_error_taxonomy ⟨2, [some carA, none], 0, 1⟩ carA "Z" 0).2.2.2.2.2.2 ?_⟩
  intro j hj car hcar
  rcases j with _ | _ | j
  · cases hcar
    decide
  · cases hcar
  · exact absurd hj (show ¬(j + 1 + 1 < 2) by omega)

/-- C9: dequeue is the only operation that advances `front`: a successful
enqueue leaves `front` unchanged, a successful dequeue moves it to
`(front + 1) % capacity`, while clear, resize and a successful removal reset
it to `0`; a removal miss returns the identical state.  `peek_front`,
`find_index_by_car_id`, `is_full` and `is_empty` compute no new state in the
embedding, so they cannot move `front` at all. -/
theorem claim9_only_dequeue_advances_front (q : ParkingQueue) (v : Entry)
    (cid : String) (m : Int) (hsz : 1 ≤ q.size) :
    (∀ i q', q.enqueue v = .ok (i, q') → q'.front = q.front) ∧
    (∀ r q', q.dequeue = .ok (r, q') → q'.front = (q.front + 1) % q.size) ∧
    q.clear.front = 0 ∧
    (∀ q', q.set_size m = .ok q' → q'.front = 0) ∧
    (∀ w q', q.remove_by_car_id cid = .ok (some w, q') → q'.front = 0) ∧
    (∀ q', q.remove_by_car_id cid = .ok (none, q') → q' = q) := by
  refine ⟨?_, ?_, rfl, ?_, ?_, ?_⟩
  · intro i q' h
    obtain ⟨-, -, hq'⟩ := enqueue_inv h
    subst hq'
    rfl
  · intro r q' h
    obtain ⟨-, -, hq'⟩ := dequeue_inv h
    subst hq'
    rfl
  · intro q' h
    exact (set_size_frame h).1
  · intro w q' h
    exact (remove_some_frame h).1
  · intro q' h
    exact remove_miss_inv h

/-- C9 witness: the front-movement facts at concrete states. -/
theorem claim9_only_dequeue_advances_front_witness :
    ((ParkingQueue.mk 2 [some carB, some carA] 1 2).front =
      (ParkingQueue.mk 2 [none, some carA] 1 1).front) ∧
    ((ParkingQueue.mk 2 [some carB, none] 0 1).front =
      ((ParkingQueue.mk 2 [some carB, some carA] 1 2).front + 1) % 2) ∧
    (ParkingQueue.mk 2 [some carA, none] 0 1).clear.front = 0 ∧
    (ParkingQueue.mk 1 [some carA] 0 1).front = 0 ∧
    (ParkingQueue.mk 2 [none, none] 0 0).front = 0 ∧
    (ParkingQueue.mk 2 [some carA, none] 0 1) = (ParkingQueue.mk 2 [some carA, none] 0 1) := by
  refine ⟨?_, ?_,
    (claim9_only_dequeue_advances_front ⟨2, [some carA, none], 0, 1⟩ carA "Z" 1
      (by decide)).2.2.1, ?_, ?_, ?_⟩
  · exact (claim9_only_dequeue_advances_front ⟨2, [none, some carA], 1, 1⟩ carB "Z" 1
      (by decide)).1 0 ⟨2, [some carB, some carA], 1, 2⟩ rfl
  · exact (claim9_only_dequeue_advances_front ⟨2, [some carB, some carA], 1, 2⟩ carB "Z" 1
      (by decide)).2.1 (some carA) ⟨2, [some carB, none], 0, 1⟩ rfl
  · exact (claim9_only_dequeue_advances_front ⟨2, [some carA, some carB], 0, 2⟩ carA "Z" 1
      (by decide)).2.2.2.1 ⟨1, [some carA], 0, 1⟩ rfl
  · exact (claim9_only_dequeue_advances_front ⟨2, [some carA, none], 0, 1⟩ carA "A" 1
      (by decide)).2.2.2.2.1 carA ⟨2, [none, none], 0, 0⟩ rfl
  · exact (claim9_only_dequeue_advances_front ⟨2, [some carA, none], 0, 1⟩ carA "Z" 1
      (by decide)).2.2.2.2.2 ⟨2, [some carA, none], 0, 1⟩ rfl

/-- C10: removeByKey on a non-empty queue holding no entry with the given id
returns `none` (NotFound) together with the very same state — `front`,
`count`, capacity and every slot unchanged; no rebuild happens. -/
theorem claim10_remove_miss_no_change (q : ParkingQueue) (cid : String)
    (hne : q.count ≠ 0)
    (hmiss : ∀ e ∈ entriesList q, (e.id == cid) = false) :
    q.remove_by_car_id cid = .ok (none, q) :=
  remove_none hmiss

/-- C10 witness: removing an absent id from a one-car queue. -/
theorem claim10_remove_miss_no_change_witness :
    (1 : Nat) ≠ 0 ∧
    (ParkingQueue.mk 2 [some carA, none] 0 1).remove_by_car_id "Z" =
      .ok (none, ParkingQueue.mk 2 [some carA, none] 0 1) :=
  ⟨by decide,
    claim10_remove_miss_no_change ⟨2, [some carA, none], 0, 1⟩ "Z" (by decide) (by decide)⟩

end ParkingQueue
